import Mathlib

/-!
Verification of the segment-alignment and merge engine of the DeepRecall
backend (src/python/helpers/parsingHelpers.py, src/python/helpers/audioHelpers.py,
src/python/endpoints/conversate/conversation.py).

Modelling conventions:
* Python floats carrying times are modelled as exact rationals `ℚ`; the
  algorithms only subtract, compare and take min/max of them.
* Python strings holding transcript text are modelled as `List Char`
  (a Python `str` is a sequence of code points); `str.strip()` becomes
  `strip`, whitespace tested by `Char.isWhitespace`.  Speaker labels and
  file names, which are only compared for equality, stay `String`.
* RTTM input is modelled one line at a time as a list of whitespace-split
  tokens; a token is either numeric (Python `float(tok)` succeeds) or a
  non-numeric word (`float(tok)` raises `ValueError`).
* Fallible code returns `Option`/`Except`; an uncaught Python exception is
  `Except.error ()`.
-/

namespace DeepRecall

/-- Text of a transcript segment: a Python string as a list of characters. -/
abbrev Text := List Char

/-- The space character, used by the merger as the joining separator. -/
def spaceChar : Char := Char.ofNat 32

/-- Whitespace test used by Python `str.strip()`. -/
def isWS (c : Char) : Bool := c.isWhitespace

/-- Python `str.strip()`: drop leading and trailing whitespace. -/
def strip (t : Text) : Text := ((t.dropWhile isWS).reverse.dropWhile isWS).reverse

/-- One diarization interval as produced by `parse_rttm`
(dict `{start, end, speaker}` in the source). -/
structure RttmSegment where
  start : ℚ
  «end» : ℚ
  speaker : String
deriving DecidableEq

/-- One transcript segment (dict `{start, end, text}` from Whisper). -/
structure TranscriptSegment where
  start : ℚ
  «end» : ℚ
  text : Text
deriving DecidableEq

/-- One combined segment (dict `{start, end, speaker, text}`). -/
structure CombinedSegment where
  start : ℚ
  «end» : ℚ
  speaker : String
  text : Text
deriving DecidableEq

/-- Temporal overlap computed inside `assign_speaker_to_segment`:
`min(transcript_end, r_seg["end"]) - max(transcript_start, r_seg["start"])`. -/
def overlap (seg : TranscriptSegment) (r : RttmSegment) : ℚ :=
  min seg.«end» r.«end» - max seg.start r.start

/-- One iteration of the loop in `assign_speaker_to_segment`
(parsingHelpers.py lines 60-64): the accumulator is `(max_overlap, best_speaker)`. -/
def assignStep (seg : TranscriptSegment) (acc : ℚ × String) (r : RttmSegment) : ℚ × String :=
  let ov := overlap seg r
  if ov > acc.1 ∧ ov > 0 then (ov, r.speaker) else acc

/-- parsingHelpers.py `assign_speaker_to_segment` (lines 54-65). -/
def assign_speaker_to_segment (seg : TranscriptSegment)
    (rttm_segments : List RttmSegment) : String :=
  (rttm_segments.foldl (assignStep seg) (0, "Unknown")).2

/-- Construction of one combined dict inside `combine_transcript_and_rttm`
(lines 72-77). -/
def annotate (rttm_segments : List RttmSegment) (seg : TranscriptSegment) :
    CombinedSegment :=
  { start := seg.start
    «end» := seg.«end»
    speaker := assign_speaker_to_segment seg rttm_segments
    text := seg.text }

/-- Sort key of `combined.sort(key=lambda x: x["start"])`. -/
def startLE (a b : CombinedSegment) : Prop := a.start ≤ b.start

instance : DecidableRel startLE :=
  fun a b => inferInstanceAs (Decidable (a.start ≤ b.start))

instance : IsTotal CombinedSegment startLE := ⟨fun a b => le_total a.start b.start⟩

instance : IsTrans CombinedSegment startLE := ⟨fun _ _ _ h h2 => le_trans h h2⟩

/-- parsingHelpers.py `combine_transcript_and_rttm` (lines 67-79).  Python's
`list.sort` is a stable sort; `List.insertionSort` is likewise stable. -/
def combine_transcript_and_rttm (transcript_segments : List TranscriptSegment)
    (rttm_segments : List RttmSegment) : List CombinedSegment :=
  (transcript_segments.map (annotate rttm_segments)).insertionSort startLE

/-- Text concatenation performed on a merge:
`last_seg["text"].strip() + " " + seg["text"].strip()` (line 106). -/
def mergeText (a b : Text) : Text := strip a ++ spaceChar :: strip b

/-- In-place update of the last merged segment (lines 105-106). -/
def extendSeg (last seg : CombinedSegment) : CombinedSegment :=
  { last with «end» := seg.«end», text := mergeText last.text seg.text }

/-- Loop of `merge_consecutive_segments` (lines 102-108); `last` is the
segment currently at the end of the output list. -/
def mergeLoop (last : CombinedSegment) : List CombinedSegment → List CombinedSegment
  | [] => [last]
  | seg :: rest =>
    if seg.speaker = last.speaker then mergeLoop (extendSeg last seg) rest
    else last :: mergeLoop seg rest

/-- parsingHelpers.py `merge_consecutive_segments` (lines 97-109). -/
def merge_consecutive_segments : List CombinedSegment → List CombinedSegment
  | [] => []
  | s :: rest => mergeLoop s rest

/-- First loop of `remap_speakers` (lines 86-89): unique speaker labels in
order of first appearance. -/
def unique_speakers (combined_segments : List CombinedSegment) : List String :=
  combined_segments.foldl
    (fun acc seg => if seg.speaker ∈ acc then acc else acc ++ [seg.speaker]) []

/-- parsingHelpers.py `remap_speakers` (lines 81-95): the dict
`mapping[sp] = speaker_names[idx] if idx < len(speaker_names) else sp`
applied to every segment. -/
def remap_speakers (combined_segments : List CombinedSegment)
    (speaker_names : List String) : List CombinedSegment :=
  let uniq := unique_speakers combined_segments
  combined_segments.map (fun seg =>
    { seg with speaker := speaker_names.getD (uniq.indexOf seg.speaker) seg.speaker })

/-! RTTM line parsing.  A raw line is modelled after `line.strip().split()`:
a list of whitespace-free tokens (a blank line is the empty list).  A token is
`Tok.num q` when Python `float(token)` succeeds with value `q`, and
`Tok.word s` when `float(token)` raises `ValueError`. -/

/-- One whitespace-split RTTM field. -/
inductive Tok where
  | num (q : ℚ)
  | word (s : String)
deriving DecidableEq

/-- Python `float(tok)`: yields the numeric value or fails. -/
def Tok.toFloat : Tok → Option ℚ
  | .num q => some q
  | .word _ => none

/-- The raw string of a token (used for the speaker field `parts[7]`). -/
def Tok.str : Tok → String
  | .num q => toString q
  | .word s => s

/-- Processing of one non-blank line by `parse_rttm`
(parsingHelpers.py lines 42-47): any missing or non-numeric field raises. -/
def parse_rttm_line (parts : List Tok) : Option RttmSegment := do
  let t3 ← parts[3]?
  let start ← t3.toFloat
  let t4 ← parts[4]?
  let dur ← t4.toFloat
  let t7 ← parts[7]?
  some { start := start, «end» := start + dur, speaker := t7.str }

/-- parsingHelpers.py `parse_rttm` (lines 35-48): skip blank lines, parse every
other line strictly; the whole parse fails if any non-blank line fails. -/
def parse_rttm (lines : List (List Tok)) : Option (List RttmSegment) :=
  (lines.filter (fun l => !l.isEmpty)).mapM parse_rttm_line

/-- Body of the `try` block in audioHelpers.py lines 79-84: extract and parse
`parts[3]` and `parts[4]`; any failure inside is caught (`continue`). -/
def tryTimes (parts : List Tok) : Option (ℚ × ℚ) := do
  let t3 ← parts[3]?
  let start ← t3.toFloat
  let t4 ← parts[4]?
  let dur ← t4.toFloat
  some (start, start + dur)

/-- Python `dict.setdefault(sp, []).append(iv)` on an insertion-ordered dict,
modelled as an association list. -/
def addInterval (groups : List (String × List (ℚ × ℚ))) (sp : String)
    (iv : ℚ × ℚ) : List (String × List (ℚ × ℚ)) :=
  match groups with
  | [] => [(sp, [iv])]
  | (s, ivs) :: rest =>
    if s = sp then (s, ivs ++ [iv]) :: rest else (s, ivs) :: addInterval rest sp iv

/-- Lenient grouping loop of `create_speaker_audio_segments`
(audioHelpers.py lines 72-86).  `parts[7]` is read OUTSIDE the `try` block, so
its `IndexError` escapes the loop: that is `Except.error ()`. -/
def group_rttm_by_speaker (lines : List (List Tok)) :
    Except Unit (List (String × List (ℚ × ℚ))) :=
  lines.foldlM (fun groups parts =>
    if parts.isEmpty then pure groups
    else
      match tryTimes parts with
      | none => pure groups
      | some se =>
        match parts[7]? with
        | none => Except.error ()
        | some t7 => pure (addInterval groups t7.str se)) []

/-! Conversation pipeline state and the health-check endpoint
(src/python/endpoints/conversate/conversation.py). -/

/-- The `states` dict created by `initialize_conversation`
(conversation.py lines 61-69). -/
structure ConversationStates where
  audioAvailable : Bool
  diarization : Bool
  transcript : Bool
  speakerAudioSegments : Bool
  speakerAssignment : Bool
  report : Bool
  stats : Bool
deriving DecidableEq

/-- The parts of a persisted conversation record that `health_check` reads
and writes. -/
structure Conversation where
  id : String
  speakers : List String
  states : ConversationStates
deriving DecidableEq

/-- Presence of this conversation's on-disk artifacts, as observed by the
`os.path.exists` / `os.listdir` calls in `health_check`
(conversation.py lines 320-335). -/
structure ConvFolder where
  wavExists : Bool
  mp3Exists : Bool
  rttmExists : Bool
  rawTranscriptExists : Bool
  mergedTranscriptExists : Bool
  speakerSegmentsMp3Exists : Bool
deriving DecidableEq

/-- Return value of the endpoint: the saved conversation record, the
`missing_files` list and the returned `states`. -/
structure HealthCheckResult where
  conversation : Conversation
  missing_files : List String
  states : ConversationStates
deriving DecidableEq

/-- conversation.py `health_check` (lines 299-361), for a conversation already
found in the store (the 404 path of the endpoint is not modelled). -/
def health_check (fs : ConvFolder) (conv : Conversation) : HealthCheckResult :=
  let audio_exists := fs.wavExists || fs.mp3Exists
  let rttm_exists := fs.rttmExists
  let raw_transcript_exists := fs.rawTranscriptExists
  let merged_transcript_exists := fs.mergedTranscriptExists
  let segments_exist := fs.speakerSegmentsMp3Exists
  let missing_files :=
    (if !audio_exists then ["Audio file (wav or mp3)"] else []) ++
    (if !rttm_exists then ["RTTM file"] else []) ++
    (if !raw_transcript_exists then ["Raw transcript"] else []) ++
    (if !merged_transcript_exists then ["Merged transcript"] else []) ++
    (if !segments_exist then ["Speaker audio segments"] else [])
  let states : ConversationStates :=
    { audioAvailable := audio_exists
      diarization := rttm_exists
      transcript := raw_transcript_exists
      speakerAudioSegments := segments_exist
      speakerAssignment := !conv.speakers.isEmpty
      report := conv.states.report
      stats := conv.states.stats }
  { conversation := { conv with states := states }
    missing_files := missing_files
    states := states }

/-! Claim C1: overlap resolution. -/

/-- Running maximum of overlaps, seeded with `a` (mirrors how `max_overlap`
evolves through the loop of `assign_speaker_to_segment`). -/
def ovMax (seg : TranscriptSegment) (l : List RttmSegment) (a : ℚ) : ℚ :=
  l.foldl (fun b r => max b (overlap seg r)) a

lemma ovMax_nil (seg : TranscriptSegment) (a : ℚ) : ovMax seg [] a = a := rfl

lemma ovMax_cons (seg : TranscriptSegment) (r : RttmSegment) (t : List RttmSegment)
    (a : ℚ) : ovMax seg (r :: t) a = ovMax seg t (max a (overlap seg r)) := rfl

lemma le_ovMax (seg : TranscriptSegment) :
    ∀ (l : List RttmSegment) (a : ℚ), a ≤ ovMax seg l a
  | [], _ => le_refl _
  | r :: t, a => le_trans (le_max_left a (overlap seg r)) (le_ovMax seg t _)

lemma ovMax_of_le (seg : TranscriptSegment) :
    ∀ (l : List RttmSegment) (a : ℚ), (∀ r ∈ l, overlap seg r ≤ a) → ovMax seg l a = a
  | [], _, _ => rfl
  | r :: t, a, h => by
    rw [ovMax_cons, max_eq_left (h r (List.mem_cons_self r t))]
    exact ovMax_of_le seg t a (fun x hx => h x (List.mem_cons_of_mem r hx))

lemma mem_le_ovMax (seg : TranscriptSegment) :
    ∀ (l : List RttmSegment) (a : ℚ), ∀ x ∈ l, overlap seg x ≤ ovMax seg l a
  | r :: t, a, x, hx => by
    rcases List.mem_cons.1 hx with h | h
    · subst h
      exact le_trans (le_max_right a (overlap seg x)) (le_ovMax seg t _)
    · exact mem_le_ovMax seg t _ x h

/-- Full characterisation of the accumulator loop of
`assign_speaker_to_segment`: starting from `(a, s)` with `0 ≤ a`, the final
`max_overlap` is the running maximum, the speaker is untouched when nothing
beats `a`, and otherwise it is the speaker of the first interval attaining
the maximum. -/
lemma assign_fold_spec (seg : TranscriptSegment) :
    ∀ (l : List RttmSegment) (a : ℚ) (s : String), 0 ≤ a →
      (l.foldl (assignStep seg) (a, s)).1 = ovMax seg l a
      ∧ (ovMax seg l a = a → (l.foldl (assignStep seg) (a, s)).2 = s)
      ∧ (a < ovMax seg l a →
          ∃ r, l.find? (fun x => decide (overlap seg x = ovMax seg l a)) = some r
             ∧ (l.foldl (assignStep seg) (a, s)).2 = r.speaker)
  | [], a, s, _ => by
    refine ⟨rfl, fun _ => rfl, fun h => absurd h (lt_irrefl a)⟩
  | r :: t, a, s, ha => by
    have hstep : ∀ acc : ℚ × String, List.foldl (assignStep seg) acc (r :: t)
        = List.foldl (assignStep seg) (assignStep seg acc r) t := fun _ => rfl
    by_cases hov : a < overlap seg r
    · -- the interval beats the current maximum: the accumulator is replaced
      have hpos : overlap seg r > 0 := lt_of_le_of_lt ha hov
      have hacc : assignStep seg (a, s) r = (overlap seg r, r.speaker) := by
        simp [assignStep, hov, hpos]
      have hov0 : (0 : ℚ) ≤ overlap seg r := le_of_lt hpos
      have hmax : max a (overlap seg r) = overlap seg r := max_eq_right (le_of_lt hov)
      obtain ⟨ih1, ih2, ih3⟩ := assign_fold_spec seg t (overlap seg r) r.speaker hov0
      have hM : ovMax seg (r :: t) a = ovMax seg t (overlap seg r) := by
        rw [ovMax_cons, hmax]
      refine ⟨?_, ?_, ?_⟩
      · rw [hstep, hacc, ih1, hM]
      · intro h
        exfalso
        have : a < ovMax seg (r :: t) a := by
          rw [hM]; exact lt_of_lt_of_le hov (le_ovMax seg t _)
        exact absurd h (ne_of_gt this)
      · intro _
        by_cases hlt : overlap seg r < ovMax seg t (overlap seg r)
        · obtain ⟨rb, hfind, hsp⟩ := ih3 hlt
          refine ⟨rb, ?_, ?_⟩
          · rw [List.find?_cons_of_neg, hM]
            · rw [← hM]; rw [hM]; exact hfind
            · simp only [decide_eq_true_eq, hM]
              exact ne_of_lt hlt
          · rw [hstep, hacc]; exact hsp
        · have heq : ovMax seg t (overlap seg r) = overlap seg r :=
            le_antisymm (not_lt.1 hlt) (le_ovMax seg t _)
          refine ⟨r, ?_, ?_⟩
          · rw [List.find?_cons_of_pos]
            simp only [decide_eq_true_eq, hM, heq]
          · rw [hstep, hacc, ih2 heq]
    · -- the interval does not beat the current maximum: accumulator unchanged
      have hacc : assignStep seg (a, s) r = (a, s) := by
        simp only [assignStep]
        have : ¬(overlap seg r > a ∧ overlap seg r > 0) := fun hc => hov hc.1
        simp [this]
      have hmax : max a (overlap seg r) = a := max_eq_left (not_lt.1 hov)
      have hM : ovMax seg (r :: t) a = ovMax seg t a := by rw [ovMax_cons, hmax]
      obtain ⟨ih1, ih2, ih3⟩ := assign_fold_spec seg t a s ha
      refine ⟨?_, ?_, ?_⟩
      · rw [hstep, hacc, ih1, hM]
      · intro h; rw [hstep, hacc]; exact ih2 (by rw [← hM]; exact h)
      · intro h
        have h' : a < ovMax seg t a := by rw [← hM]; exact h
        obtain ⟨rb, hfind, hsp⟩ := ih3 h'
        refine ⟨rb, ?_, ?_⟩
        · rw [List.find?_cons_of_neg, hM]
          · exact hfind
          · simp only [decide_eq_true_eq, hM]
            intro hc
            exact absurd (hc ▸ h') (not_lt.2 (not_lt.1 hov))
        · rw [hstep, hacc]; exact hsp

/-- C1: for every transcript segment and list of diarization intervals, the
overlap resolver returns the speaker of the interval with the strictly
largest positive overlap (`overlap = min(seg.end, r.end) - max(seg.start,
r.start)`); ties in positive overlap go to the earlier-listed interval
(`List.find?` returns the first interval attaining the maximum); when no
interval has positive overlap the literal label "Unknown" is returned. -/
theorem assign_speaker_overlap_resolution (seg : TranscriptSegment)
    (rttm : List RttmSegment) :
    ((∀ r ∈ rttm, overlap seg r ≤ 0) →
        assign_speaker_to_segment seg rttm = "Unknown")
    ∧ (0 < ovMax seg rttm 0 →
        ∃ r, rttm.find? (fun x => decide (overlap seg x = ovMax seg rttm 0)) = some r
          ∧ 0 < overlap seg r
          ∧ (∀ x ∈ rttm, overlap seg x ≤ overlap seg r)
          ∧ assign_speaker_to_segment seg rttm = r.speaker) := by
  obtain ⟨h1, h2, h3⟩ := assign_fold_spec seg rttm 0 "Unknown" (le_refl 0)
  constructor
  · intro hall
    exact h2 (ovMax_of_le seg rttm 0 hall)
  · intro hpos
    obtain ⟨r, hfind, hsp⟩ := h3 hpos
    have heq : overlap seg r = ovMax seg rttm 0 := by
      have := List.find?_some hfind
      simpa using this
    refine ⟨r, hfind, ?_, ?_, hsp⟩
    · rw [heq]; exact hpos
    · intro x hx
      rw [heq]
      exact mem_le_ovMax seg rttm 0 x hx

/-- README-style example from the spec: diarization `[(0,5,"A"), (5,10,"B")]`. -/
def exIntA : RttmSegment := ⟨0, 5, "A"⟩

def exIntB : RttmSegment := ⟨5, 10, "B"⟩

/-- Transcript segment [2,6] "there": overlaps A by 3 and B by 1. -/
def exSegThere : TranscriptSegment := ⟨2, 6, ['t', 'h', 'e', 'r', 'e']⟩

/-- Transcript segment far away from both intervals. -/
def exSegFar : TranscriptSegment := ⟨20, 30, ['x']⟩

/-- Witness for C1: at segment [20,30] no interval overlaps and the resolver
answers "Unknown"; at segment [2,6] interval A attains the maximal overlap 3
and wins. -/
theorem assign_speaker_overlap_resolution_witness :
    ((∀ r ∈ [exIntA, exIntB], overlap exSegFar r ≤ 0)
      ∧ assign_speaker_to_segment exSegFar [exIntA, exIntB] = "Unknown")
    ∧ (0 < ovMax exSegThere [exIntA, exIntB] 0
      ∧ ∃ r, [exIntA, exIntB].find?
            (fun x => decide (overlap exSegThere x = ovMax exSegThere [exIntA, exIntB] 0))
            = some r
          ∧ 0 < overlap exSegThere r
          ∧ (∀ x ∈ [exIntA, exIntB], overlap exSegThere x ≤ overlap exSegThere r)
          ∧ assign_speaker_to_segment exSegThere [exIntA, exIntB] = r.speaker) :=
  ⟨⟨by
      simp only [List.mem_cons, List.not_mem_nil, or_false]
      rintro r (rfl | rfl) <;>
        norm_num [overlap, exSegFar, exIntA, exIntB, min_def, max_def],
    (assign_speaker_overlap_resolution exSegFar [exIntA, exIntB]).1 (by
      simp only [List.mem_cons, List.not_mem_nil, or_false]
      rintro r (rfl | rfl) <;>
        norm_num [overlap, exSegFar, exIntA, exIntB, min_def, max_def])⟩,
   ⟨by
      norm_num [ovMax, List.foldl, overlap, exSegThere, exIntA, exIntB, min_def, max_def],
    (assign_speaker_overlap_resolution exSegThere [exIntA, exIntB]).2 (by
      norm_num [ovMax, List.foldl, overlap, exSegThere, exIntA, exIntB, min_def, max_def])⟩⟩

/-! Claim C2: the timeline combiner. -/

/-- C2: the combiner's output is the input transcript segments each annotated
with the resolver's speaker (a permutation of the annotated input), sorted by
start time ascending regardless of input order, and its length equals the
input transcript-segment count. -/
theorem combine_sorted_complete (ts : List TranscriptSegment)
    (rttm : List RttmSegment) :
    (combine_transcript_and_rttm ts rttm).length = ts.length
    ∧ List.Sorted startLE (combine_transcript_and_rttm ts rttm)
    ∧ List.Perm (combine_transcript_and_rttm ts rttm) (ts.map (annotate rttm)) := by
  refine ⟨?_, ?_, ?_⟩
  · have h := List.perm_insertionSort startLE (ts.map (annotate rttm))
    rw [combine_transcript_and_rttm, h.length_eq, List.length_map]
  · exact List.sorted_insertionSort startLE (ts.map (annotate rttm))
  · exact List.perm_insertionSort startLE (ts.map (annotate rttm))

/-! Claim C3: the consecutive-run merger. -/

lemma extendSeg_speaker (last seg : CombinedSegment) :
    (extendSeg last seg).speaker = last.speaker := rfl

lemma mergeLoop_head_speaker :
    ∀ (l : List CombinedSegment) (last : CombinedSegment),
      ∃ h t, mergeLoop last l = h :: t ∧ h.speaker = last.speaker
  | [], last => ⟨last, [], rfl, rfl⟩
  | seg :: rest, last => by
    by_cases hsp : seg.speaker = last.speaker
    · obtain ⟨h, t, heq, hspeq⟩ := mergeLoop_head_speaker rest (extendSeg last seg)
      exact ⟨h, t, by rw [mergeLoop, if_pos hsp]; exact heq,
        by rw [hspeq, extendSeg_speaker]⟩
    · exact ⟨last, mergeLoop seg rest, by rw [mergeLoop, if_neg hsp], rfl⟩

lemma mergeLoop_chain :
    ∀ (l : List CombinedSegment) (last : CombinedSegment),
      List.Chain' (fun a b => a.speaker ≠ b.speaker) (mergeLoop last l)
  | [], _ => List.chain'_singleton _
  | seg :: rest, last => by
    by_cases hsp : seg.speaker = last.speaker
    · rw [mergeLoop, if_pos hsp]
      exact mergeLoop_chain rest (extendSeg last seg)
    · rw [mergeLoop, if_neg hsp]
      obtain ⟨h, t, heq, hspeq⟩ := mergeLoop_head_speaker rest seg
      rw [heq]
      exact List.chain'_cons.2 ⟨by rw [hspeq]; exact fun hc => hsp hc.symm,
        heq ▸ mergeLoop_chain rest seg⟩

lemma mergeLoop_length :
    ∀ (l : List CombinedSegment) (last : CombinedSegment),
      (mergeLoop last l).length ≤ l.length + 1
  | [], _ => le_refl 1
  | seg :: rest, last => by
    by_cases hsp : seg.speaker = last.speaker
    · rw [mergeLoop, if_pos hsp]
      exact le_trans (mergeLoop_length rest _) (by simp)
    · rw [mergeLoop, if_neg hsp, List.length_cons]
      simpa using mergeLoop_length rest seg

/-- C3: the merger's output has no two adjacent equal speaker labels, its
length never exceeds the input length, and empty input yields empty output. -/
theorem merge_no_adjacent_equal (l : List CombinedSegment) :
    merge_consecutive_segments ([] : List CombinedSegment) = []
    ∧ List.Chain' (fun a b => a.speaker ≠ b.speaker) (merge_consecutive_segments l)
    ∧ (merge_consecutive_segments l).length ≤ l.length := by
  refine ⟨rfl, ?_, ?_⟩
  · cases l with
    | nil => exact List.chain'_nil
    | cons s rest => exact mergeLoop_chain rest s
  · cases l with
    | nil => exact le_refl 0
    | cons s rest => exact mergeLoop_length rest s

/-! Claim C9: merger idempotence. -/

lemma mergeLoop_of_chain :
    ∀ (rest : List CombinedSegment) (s : CombinedSegment),
      List.Chain' (fun a b => a.speaker ≠ b.speaker) (s :: rest) →
      mergeLoop s rest = s :: rest
  | [], _, _ => rfl
  | seg :: rest', s, h => by
    obtain ⟨hne, htail⟩ := List.chain'_cons.1 h
    rw [mergeLoop, if_neg (fun hc => hne hc.symm),
      mergeLoop_of_chain rest' seg htail]

lemma merge_of_chain (l : List CombinedSegment)
    (h : List.Chain' (fun a b => a.speaker ≠ b.speaker) l) :
    merge_consecutive_segments l = l := by
  cases l with
  | nil => rfl
  | cons s rest => exact mergeLoop_of_chain rest s h

/-- C9: the merger is idempotent: a list with no two adjacent equal speaker
labels is returned unchanged, and merging twice equals merging once. -/
theorem merge_idempotent (l : List CombinedSegment) :
    (List.Chain' (fun a b => a.speaker ≠ b.speaker) l →
        merge_consecutive_segments l = l)
    ∧ merge_consecutive_segments (merge_consecutive_segments l)
        = merge_consecutive_segments l := by
  refine ⟨merge_of_chain l, merge_of_chain _ ?_⟩
  cases l with
  | nil => exact List.chain'_nil
  | cons s rest => exact mergeLoop_chain rest s

/-- Example list that is already maximally merged. -/
def exMergedList : List CombinedSegment :=
  [⟨0, 1, "A", ['a']⟩, ⟨1, 2, "B", ['b']⟩]

/-- Witness for C9: the already-maximally-merged two-speaker list is returned
unchanged. -/
theorem merge_idempotent_witness :
    List.Chain' (fun a b => a.speaker ≠ b.speaker) exMergedList
    ∧ merge_consecutive_segments exMergedList = exMergedList :=
  ⟨List.chain'_cons.2 ⟨by decide, List.chain'_singleton _⟩,
   (merge_idempotent exMergedList).1
     (List.chain'_cons.2 ⟨by decide, List.chain'_singleton _⟩)⟩

/-! Claims C7 and C8: the run decomposition computed by the merger. -/

/-- Maximal same-speaker runs of a segment list: the grouping whose runs the
merger collapses. -/
def runs : List CombinedSegment → List (List CombinedSegment)
  | [] => []
  | s :: rest =>
    (s :: rest.takeWhile (fun x => x.speaker == s.speaker))
      :: runs (rest.dropWhile (fun x => x.speaker == s.speaker))
termination_by l => l.length
decreasing_by
  simp only [List.length_cons]
  exact Nat.lt_succ_of_le (List.dropWhile_sublist _).length_le

lemma runs_nil : runs [] = [] := by rw [runs]

lemma runs_cons (s : CombinedSegment) (rest : List CombinedSegment) :
    runs (s :: rest)
      = (s :: rest.takeWhile (fun x => x.speaker == s.speaker))
        :: runs (rest.dropWhile (fun x => x.speaker == s.speaker)) := by
  rw [runs]

/-- Collapse of a run: the Python loop folds every later member into the
first with `extendSeg`. -/
def collapseRun (f : CombinedSegment) (r : List CombinedSegment) : CombinedSegment :=
  r.foldl extendSeg f

/-- Collapse of a run given as a bare (nonempty) list. -/
def collapseGroup : List CombinedSegment → CombinedSegment
  | [] => ⟨0, 0, "", []⟩
  | f :: r => collapseRun f r

lemma mergeLoop_eq_runs :
    ∀ (l : List CombinedSegment) (f : CombinedSegment),
      mergeLoop f l = (runs (f :: l)).map collapseGroup
  | [], f => by
    rw [runs_cons]
    simp [runs, mergeLoop, collapseGroup, collapseRun]
  | seg :: rest, f => by
    by_cases hsp : seg.speaker = f.speaker
    · have htw : List.takeWhile (fun x => x.speaker == f.speaker) (seg :: rest)
          = seg :: List.takeWhile (fun x => x.speaker == f.speaker) rest := by
        simp [List.takeWhile_cons, hsp]
      have hdw : List.dropWhile (fun x => x.speaker == f.speaker) (seg :: rest)
          = List.dropWhile (fun x => x.speaker == f.speaker) rest := by
        simp [List.dropWhile_cons, hsp]
      rw [mergeLoop, if_pos hsp, mergeLoop_eq_runs rest (extendSeg f seg),
        runs_cons f (seg :: rest), htw, hdw, runs_cons (extendSeg f seg) rest]
      simp only [extendSeg_speaker, List.map_cons]
      rfl
    · have htw : List.takeWhile (fun x => x.speaker == f.speaker) (seg :: rest)
          = [] := by
        simp [List.takeWhile_cons, hsp]
      have hdw : List.dropWhile (fun x => x.speaker == f.speaker) (seg :: rest)
          = seg :: rest := by
        simp [List.dropWhile_cons, hsp]
      rw [mergeLoop, if_neg hsp, mergeLoop_eq_runs rest seg,
        runs_cons f (seg :: rest), htw, hdw, List.map_cons]
      rfl

lemma merge_eq_runs (l : List CombinedSegment) :
    merge_consecutive_segments l = (runs l).map collapseGroup := by
  cases l with
  | nil => rw [runs_nil]; rfl
  | cons s rest => exact mergeLoop_eq_runs rest s

lemma runs_flatten : ∀ l : List CombinedSegment, (runs l).flatten = l
  | [] => by rw [runs_nil]; rfl
  | s :: rest => by
    rw [runs_cons, List.flatten_cons,
      runs_flatten (rest.dropWhile (fun x => x.speaker == s.speaker))]
    simp [List.takeWhile_append_dropWhile]
termination_by l => l.length
decreasing_by
  simp only [List.length_cons]
  exact Nat.lt_succ_of_le (List.dropWhile_sublist _).length_le

lemma runs_groups :
    ∀ l : List CombinedSegment, ∀ g ∈ runs l,
      ∃ f r, g = f :: r ∧ ∀ x ∈ g, x.speaker = f.speaker
  | [] => by simp [runs]
  | s :: rest => by
    intro g hg
    rw [runs_cons] at hg
    rcases List.mem_cons.1 hg with h | h
    · subst h
      refine ⟨s, _, rfl, ?_⟩
      intro x hx
      rcases List.mem_cons.1 hx with h | h
      · rw [h]
      · have := List.mem_takeWhile_imp h
        simpa using this
    · exact runs_groups (rest.dropWhile (fun x => x.speaker == s.speaker)) g h
termination_by l => l.length
decreasing_by
  simp only [List.length_cons]
  exact Nat.lt_succ_of_le (List.dropWhile_sublist _).length_le

lemma collapseRun_eq :
    ∀ (r : List CombinedSegment) (f : CombinedSegment),
      collapseRun f r =
        { start := f.start
          «end» := (r.getLast?.getD f).«end»
          speaker := f.speaker
          text := r.foldl (fun t seg => mergeText t seg.text) f.text }
  | [], f => rfl
  | s :: r', f => by
    have ih := collapseRun_eq r' (extendSeg f s)
    show collapseRun (extendSeg f s) r' = _
    rw [ih]
    cases r' with
    | nil => rfl
    | cons y t =>
      have hlast := List.getLast?_eq_getLast (y :: t) (by simp)
      simp [extendSeg, mergeText, hlast]

/-- Example segment with whitespace-padded text " hi ". -/
def exPadSeg : CombinedSegment := ⟨0, 1, "A", [spaceChar, 'h', 'i', spaceChar]⟩

/-- C7 counterexample: the merger returns a single-segment run with its text
verbatim, and that text differs from its trimmed form — so the claimed
"trimmed" output text is false for runs of one segment. -/
theorem merge_singleton_run_not_trimmed :
    merge_consecutive_segments [exPadSeg] = [exPadSeg]
    ∧ strip exPadSeg.text ≠ exPadSeg.text :=
  ⟨rfl, by decide⟩

/-- C7 (amended): every output segment of the merger collapses one maximal
same-speaker run of the input: its start and speaker are the first run
member's, its end is the last run member's end, and its text is the left
fold of `strip(acc) + " " + strip(member.text)` over the later run members,
seeded with the first member's text taken verbatim — in particular a
single-segment run keeps its text untrimmed. -/
theorem merge_run_collapse (l : List CombinedSegment) :
    merge_consecutive_segments l = (runs l).map collapseGroup
    ∧ (runs l).flatten = l
    ∧ ∀ g ∈ runs l, ∃ f r, g = f :: r
        ∧ (∀ x ∈ g, x.speaker = f.speaker)
        ∧ collapseGroup g
            = { start := f.start
                «end» := (r.getLast?.getD f).«end»
                speaker := f.speaker
                text := r.foldl (fun t seg => mergeText t seg.text) f.text } := by
  refine ⟨merge_eq_runs l, runs_flatten l, ?_⟩
  intro g hg
  obtain ⟨f, r, rfl, hsp⟩ := runs_groups l g hg
  exact ⟨f, r, rfl, hsp, collapseRun_eq r f⟩

/-- Example run members: two "A" segments followed by one "B" segment. -/
def exRunA1 : CombinedSegment := ⟨0, 1, "A", ['h', 'i']⟩

def exRunA2 : CombinedSegment := ⟨1, 2, "A", [spaceChar, 'y', 'o']⟩

def exRunB : CombinedSegment := ⟨2, 3, "B", ['z']⟩

def exRunList : List CombinedSegment := [exRunA1, exRunA2, exRunB]

lemma runs_exRunList : runs exRunList = [[exRunA1, exRunA2], [exRunB]] := by
  have htw : List.takeWhile (fun x => x.speaker == exRunA1.speaker)
      [exRunA2, exRunB] = [exRunA2] := rfl
  have hdw : List.dropWhile (fun x => x.speaker == exRunA1.speaker)
      [exRunA2, exRunB] = [exRunB] := rfl
  rw [exRunList, runs_cons, htw, hdw, runs_cons]
  simp [runs_nil]

/-- Witness for C7 (amended): the "A"-run of the example list collapses to a
segment ending at the last run member's end, with the fold-joined text. -/
theorem merge_run_collapse_witness :
    ([exRunA1, exRunA2] ∈ runs exRunList)
    ∧ ∃ f r, ([exRunA1, exRunA2] : List CombinedSegment) = f :: r
        ∧ (∀ x ∈ ([exRunA1, exRunA2] : List CombinedSegment), x.speaker = f.speaker)
        ∧ collapseGroup [exRunA1, exRunA2]
            = { start := f.start
                «end» := (r.getLast?.getD f).«end»
                speaker := f.speaker
                text := r.foldl (fun t seg => mergeText t seg.text) f.text } := by
  have hmem : [exRunA1, exRunA2] ∈ runs exRunList := by
    rw [runs_exRunList]
    exact List.mem_cons_self _ _
  exact ⟨hmem, (merge_run_collapse exRunList).2.2 _ hmem⟩

/-! Claim C8: text preservation through combine-then-merge. -/

/-- Space-joined concatenation of a list of texts. -/
def joinTexts : List Text → Text
  | [] => []
  | t :: rest => if rest.isEmpty then t else t ++ spaceChar :: joinTexts rest

lemma joinTexts_singleton (t : Text) : joinTexts [t] = t := by
  rw [joinTexts]
  rfl

lemma joinTexts_cons_cons (a b : Text) (m : List Text) :
    joinTexts (a :: b :: m) = a ++ spaceChar :: joinTexts (b :: m) := by
  rw [joinTexts]
  rfl

lemma dropWhile_eq_self_head {α : Type} (p : α → Bool) (l : List α)
    (h : l.dropWhile p = l) : l = [] ∨ ∃ x m, l = x :: m ∧ p x = false := by
  cases l with
  | nil => exact Or.inl rfl
  | cons x m =>
    refine Or.inr ⟨x, m, rfl, ?_⟩
    by_contra hpx
    have hpx' : p x = true := by simpa using hpx
    rw [List.dropWhile_cons_of_pos hpx'] at h
    have hle := (List.dropWhile_sublist (l := m) p).length_le
    rw [h] at hle
    simp at hle

lemma strip_eq_self_parts (t : Text) (h : strip t = t) (hne : t ≠ []) :
    (∃ x m, t = x :: m ∧ isWS x = false)
    ∧ (∃ y m, t.reverse = y :: m ∧ isWS y = false) := by
  have hlen : ((t.dropWhile isWS).reverse.dropWhile isWS).reverse.length = t.length := by
    rw [← strip, h]
  have hle1 : (t.dropWhile isWS).length ≤ t.length :=
    (List.dropWhile_sublist isWS).length_le
  have hle2 : ((t.dropWhile isWS).reverse.dropWhile isWS).length
      ≤ (t.dropWhile isWS).reverse.length :=
    (List.dropWhile_sublist isWS).length_le
  rw [List.length_reverse] at hlen
  rw [List.length_reverse] at hle2
  have hdlen : (t.dropWhile isWS).length = t.length :=
    le_antisymm hle1 (by omega)
  have hd : t.dropWhile isWS = t :=
    (List.dropWhile_sublist isWS).eq_of_length hdlen
  have helen : ((t.dropWhile isWS).reverse.dropWhile isWS).length
      = (t.dropWhile isWS).reverse.length := by
    rw [List.length_reverse]
    omega
  have he : (t.dropWhile isWS).reverse.dropWhile isWS = (t.dropWhile isWS).reverse :=
    (List.dropWhile_sublist isWS).eq_of_length helen
  rw [hd] at he
  constructor
  · rcases dropWhile_eq_self_head isWS t hd with h0 | h0
    · exact absurd h0 hne
    · exact h0
  · rcases dropWhile_eq_self_head isWS t.reverse he with h0 | h0
    · exact absurd (by simpa using h0) hne
    · exact h0

lemma strip_eq_self_of_parts (t : Text) (x : Char) (m : Text)
    (hx : t = x :: m) (hwx : isWS x = false)
    (y : Char) (m' : Text) (hy : t.reverse = y :: m') (hwy : isWS y = false) :
    strip t = t := by
  rw [strip]
  have h1 : t.dropWhile isWS = t := by
    rw [hx]
    exact List.dropWhile_cons_of_neg (by simp [hwx])
  rw [h1, hy, List.dropWhile_cons_of_neg (by simp [hwy]), ← hy,
    List.reverse_reverse]

/-- Joining two trimmed nonempty texts with a single space yields a trimmed
text again: this is why the merger's iterated strip-join stays clean on
clean input. -/
lemma strip_append (a b : Text) (ha : strip a = a) (hna : a ≠ [])
    (hb : strip b = b) (hnb : b ≠ []) :
    strip (a ++ spaceChar :: b) = a ++ spaceChar :: b := by
  obtain ⟨⟨x, m, hxm, hwx⟩, _⟩ := strip_eq_self_parts a ha hna
  obtain ⟨_, ⟨y, m', hym, hwy⟩⟩ := strip_eq_self_parts b hb hnb
  have hrev : (a ++ spaceChar :: b).reverse = y :: (m' ++ spaceChar :: a.reverse) := by
    rw [List.reverse_append, List.reverse_cons, hym]
    simp
  exact strip_eq_self_of_parts _ x (m ++ spaceChar :: b)
    (by rw [hxm]; rfl) hwx y (m' ++ spaceChar :: a.reverse) hrev hwy

lemma collapseRun_text_join :
    ∀ (r : List CombinedSegment) (f : CombinedSegment),
      strip f.text = f.text → f.text ≠ [] →
      (∀ s ∈ r, strip s.text = s.text ∧ s.text ≠ []) →
      (collapseRun f r).text = joinTexts (f.text :: r.map (·.text))
        ∧ strip (collapseRun f r).text = (collapseRun f r).text
        ∧ (collapseRun f r).text ≠ []
  | [], f, hf, hnf, _ => ⟨by rw [joinTexts]; rfl, hf, hnf⟩
  | s :: r', f, hf, hnf, hall => by
    have hs := hall s (List.mem_cons_self s r')
    have hext : (extendSeg f s).text = f.text ++ spaceChar :: s.text := by
      simp [extendSeg, mergeText, hf, hs.1]
    have htr : strip (extendSeg f s).text = (extendSeg f s).text := by
      rw [hext]
      exact strip_append _ _ hf hnf hs.1 hs.2
    have hne : (extendSeg f s).text ≠ [] := by
      rw [hext]
      simp
    obtain ⟨ih1, ih2, ih3⟩ := collapseRun_text_join r' (extendSeg f s) htr hne
      (fun x hx => hall x (List.mem_cons_of_mem s hx))
    refine ⟨?_, ih2, ih3⟩
    show (collapseRun (extendSeg f s) r').text = _
    rw [ih1, hext]
    cases r' with
    | nil =>
      simp only [List.map_nil, List.map_cons]
      rw [joinTexts_singleton, joinTexts_cons_cons, joinTexts_singleton]
    | cons u r'' =>
      simp only [List.map_cons]
      rw [joinTexts_cons_cons, joinTexts_cons_cons, joinTexts_cons_cons]
      simp

lemma joinTexts_append :
    ∀ (a b : List Text), a ≠ [] → b ≠ [] →
      joinTexts (a ++ b) = joinTexts a ++ spaceChar :: joinTexts b
  | [], _, hna, _ => absurd rfl hna
  | [t], b, _, hnb => by
    cases b with
    | nil => exact absurd rfl hnb
    | cons c m =>
      rw [List.singleton_append, joinTexts_cons_cons, joinTexts_singleton]
  | t :: u :: a'', b, _, hnb => by
    have ih := joinTexts_append (u :: a'') b (by simp) hnb
    rw [List.cons_append] at ih
    rw [List.cons_append, List.cons_append, joinTexts_cons_cons, ih,
      joinTexts_cons_cons]
    simp

lemma joinTexts_flatten :
    ∀ (gs : List (List Text)), (∀ g ∈ gs, g ≠ []) →
      joinTexts (gs.map joinTexts) = joinTexts gs.flatten
  | [], _ => rfl
  | g :: rest, h => by
    cases rest with
    | nil => simp [joinTexts_singleton]
    | cons g2 rest' =>
      have hg : g ≠ [] := h g (List.mem_cons_self _ _)
      have hg2 : g2 ≠ [] := h g2 (List.mem_cons_of_mem _ (List.mem_cons_self _ _))
      have hflat : (g2 :: rest').flatten ≠ [] := by
        rw [List.flatten_cons]
        intro hc
        exact hg2 (List.append_eq_nil.1 hc).1
      have ih := joinTexts_flatten (g2 :: rest')
        (fun x hx => h x (List.mem_cons_of_mem _ hx))
      simp only [List.map_cons] at ih ⊢
      rw [joinTexts_cons_cons, ih]
      have hfe : (g :: g2 :: rest').flatten = g ++ (g2 :: rest').flatten :=
        List.flatten_cons
      rw [hfe, joinTexts_append g (g2 :: rest').flatten hg hflat]

/-- On input whose texts are all trimmed and nonempty, the merger's output
texts join to the same string as the input texts. -/
lemma merge_join_of_trimmed (l : List CombinedSegment)
    (h : ∀ seg ∈ l, strip seg.text = seg.text ∧ seg.text ≠ []) :
    joinTexts ((merge_consecutive_segments l).map (·.text))
      = joinTexts (l.map (·.text)) := by
  rw [merge_eq_runs, List.map_map]
  have hmem : ∀ g ∈ runs l, ∀ x ∈ g, x ∈ l := by
    intro g hg x hx
    rw [← runs_flatten l]
    exact List.mem_flatten_of_mem hg hx
  have hpt : ∀ g ∈ runs l,
      ((fun x => x.text) ∘ collapseGroup) g = joinTexts (g.map (·.text)) := by
    intro g hg
    obtain ⟨f, r, rfl, _⟩ := runs_groups l g hg
    have hf := h f (hmem _ hg f (List.mem_cons_self _ _))
    obtain ⟨j1, _, _⟩ := collapseRun_text_join r f hf.1 hf.2
      (fun x hx => h x (hmem _ hg x (List.mem_cons_of_mem _ hx)))
    exact j1
  rw [List.map_congr_left hpt]
  have hne : ∀ g ∈ (runs l).map (List.map (fun x : CombinedSegment => x.text)),
      g ≠ [] := by
    intro g hg
    obtain ⟨g0, hg0, rfl⟩ := List.mem_map.1 hg
    obtain ⟨f, r, rfl, _⟩ := runs_groups l g0 hg0
    simp
  have hjt := joinTexts_flatten
    ((runs l).map (List.map (fun x : CombinedSegment => x.text))) hne
  rw [show (fun g : List CombinedSegment => joinTexts (List.map (fun x => x.text) g))
      = joinTexts ∘ (List.map (fun x : CombinedSegment => x.text)) from rfl,
    ← List.map_map, hjt, ← List.map_flatten, runs_flatten]

/-- C8 (amended): when the transcript segments are supplied sorted by start
time and every text is nonempty and free of leading/trailing whitespace, the
space-joined concatenation of all merged texts equals the space-joined
concatenation of the original transcript texts. -/
theorem merge_join_round_trip (ts : List TranscriptSegment)
    (rttm : List RttmSegment)
    (hsorted : List.Sorted (fun a b : TranscriptSegment => a.start ≤ b.start) ts)
    (htext : ∀ seg ∈ ts, strip seg.text = seg.text ∧ seg.text ≠ []) :
    joinTexts ((merge_consecutive_segments
        (combine_transcript_and_rttm ts rttm)).map (·.text))
      = joinTexts (ts.map (·.text)) := by
  have hsorted' : List.Sorted startLE (ts.map (annotate rttm)) :=
    List.Pairwise.map (annotate rttm) (fun _ _ hab => hab) hsorted
  have hcomb : combine_transcript_and_rttm ts rttm = ts.map (annotate rttm) :=
    hsorted'.insertionSort_eq
  rw [hcomb, merge_join_of_trimmed]
  · rw [List.map_map]
    rfl
  · intro seg hseg
    obtain ⟨s0, hs0, rfl⟩ := List.mem_map.1 hseg
    exact htext s0 hs0

/-- First transcript segment of the C8 counterexample, text "a " with a
trailing space. -/
def exTsPadA : TranscriptSegment := ⟨0, 1, ['a', spaceChar]⟩

/-- Second transcript segment of the C8 counterexample, text "b". -/
def exTsPadB : TranscriptSegment := ⟨1, 2, ['b']⟩

lemma combine_exTsPad :
    combine_transcript_and_rttm [exTsPadA, exTsPadB] []
      = [annotate [] exTsPadA, annotate [] exTsPadB] := by
  refine List.Sorted.insertionSort_eq ?_
  refine List.pairwise_cons.2 ⟨?_, List.pairwise_singleton _ _⟩
  intro b hb
  rcases List.mem_singleton.1 hb with rfl
  show exTsPadA.start ≤ exTsPadB.start
  norm_num [exTsPadA, exTsPadB]

/-- C8 counterexample: with no diarization intervals both segments get the
same speaker "Unknown" and are merged; the merged text "a b" differs from
the space-joined original texts "a  b" (the merger strips the trailing
space of "a "). -/
theorem merge_join_not_preserved :
    joinTexts ((merge_consecutive_segments
        (combine_transcript_and_rttm [exTsPadA, exTsPadB] [])).map (·.text))
      ≠ joinTexts ([exTsPadA, exTsPadB].map (·.text)) := by
  rw [combine_exTsPad]
  decide

/-- Example transcript segments with clean texts "hi" and "yo". -/
def exTsHi : TranscriptSegment := ⟨0, 1, ['h', 'i']⟩

def exTsYo : TranscriptSegment := ⟨1, 2, ['y', 'o']⟩

/-- Witness for C8 (amended): two sorted segments with clean texts, no
diarization intervals; both become "Unknown", are merged, and the joined
text round-trips. -/
theorem merge_join_round_trip_witness :
    List.Sorted (fun a b : TranscriptSegment => a.start ≤ b.start) [exTsHi, exTsYo]
    ∧ (∀ seg ∈ [exTsHi, exTsYo], strip seg.text = seg.text ∧ seg.text ≠ [])
    ∧ joinTexts ((merge_consecutive_segments
        (combine_transcript_and_rttm [exTsHi, exTsYo] [])).map (·.text))
      = joinTexts ([exTsHi, exTsYo].map (·.text)) := by
  have hs : List.Sorted (fun a b : TranscriptSegment => a.start ≤ b.start)
      [exTsHi, exTsYo] := by
    refine List.pairwise_cons.2 ⟨?_, List.pairwise_singleton _ _⟩
    intro b hb
    rcases List.mem_singleton.1 hb with rfl
    norm_num [exTsHi, exTsYo]
  have ht : ∀ seg ∈ [exTsHi, exTsYo],
      strip seg.text = seg.text ∧ seg.text ≠ [] := by decide
  exact ⟨hs, ht, merge_join_round_trip [exTsHi, exTsYo] [] hs ht⟩

/-! Claims C4 and C10: the speaker remapper. -/

/-- Modelled from the spec wording "the i-th distinct speaker label (ordered
by first appearance while scanning the segments in order)": keep each label
the first time it shows up, then discard its later occurrences.  Compared
below with the source's `unique_speakers` fold. -/
def distinctByFirstAppearance : List String → List String
  | [] => []
  | x :: rest =>
    x :: distinctByFirstAppearance (rest.filter (fun y => decide (y ≠ x)))
termination_by l => l.length
decreasing_by
  simp only [List.length_cons]
  exact Nat.lt_succ_of_le (List.length_filter_le _ _)

lemma distinctBFA_nil : distinctByFirstAppearance [] = [] := by
  rw [distinctByFirstAppearance]

lemma distinctBFA_cons (x : String) (rest : List String) :
    distinctByFirstAppearance (x :: rest)
      = x :: distinctByFirstAppearance (rest.filter (fun y => decide (y ≠ x))) := by
  rw [distinctByFirstAppearance]

lemma unique_fold_eq :
    ∀ (l : List CombinedSegment) (acc : List String),
      l.foldl (fun acc seg =>
          if seg.speaker ∈ acc then acc else acc ++ [seg.speaker]) acc
        = acc ++ distinctByFirstAppearance
            ((l.map (·.speaker)).filter (fun y => decide (y ∉ acc)))
  | [], acc => by simp [distinctBFA_nil]
  | seg :: rest, acc => by
    by_cases hmem : seg.speaker ∈ acc
    · rw [List.foldl_cons, if_pos hmem, unique_fold_eq rest acc]
      simp only [List.map_cons, List.filter_cons]
      rw [if_neg (by simp [hmem])]
    · rw [List.foldl_cons, if_neg hmem, unique_fold_eq rest (acc ++ [seg.speaker])]
      simp only [List.map_cons, List.filter_cons]
      rw [if_pos (by simp [hmem])]
      rw [distinctBFA_cons, List.filter_filter]
      have hfeq : ∀ y : String,
          decide (y ∉ acc ++ [seg.speaker])
            = (decide (y ≠ seg.speaker) && decide (y ∉ acc)) := by
        intro y
        by_cases h1 : y = seg.speaker
        · simp [h1]
        · by_cases h2 : y ∈ acc <;> simp [h1, h2]
      rw [List.filter_congr (fun y _ => hfeq y)]
      simp

lemma unique_speakers_eq (l : List CombinedSegment) :
    unique_speakers l = distinctByFirstAppearance (l.map (·.speaker)) := by
  have h := unique_fold_eq l []
  rw [unique_speakers, h, List.nil_append]
  congr 1
  rw [List.filter_congr (fun y _ => by simp : ∀ y ∈ l.map (·.speaker),
    decide (y ∉ ([] : List String)) = true)]
  rw [List.filter_true]

/-- C4: the remapper sends each segment's label to the i-th supplied name,
where i is the first-appearance index of that label among the distinct
labels of the scan, and leaves the label unchanged when i is beyond the
supplied name list; the mapping is applied to every segment. -/
theorem remap_positional (l : List CombinedSegment) (names : List String)
    (_hn : names ≠ []) :
    remap_speakers l names = l.map (fun seg =>
      { seg with speaker :=
          if h : (distinctByFirstAppearance (l.map (·.speaker))).indexOf seg.speaker
              < names.length
          then names.get ⟨(distinctByFirstAppearance (l.map (·.speaker))).indexOf
              seg.speaker, h⟩
          else seg.speaker }) := by
  simp only [remap_speakers]
  refine List.map_congr_left ?_
  intro seg _
  rw [unique_speakers_eq]
  by_cases h : (distinctByFirstAppearance (l.map (·.speaker))).indexOf seg.speaker
      < names.length
  · rw [dif_pos h]
    congr 1
    rw [List.getD_eq_getElem?_getD, List.getElem?_eq_getElem h]
    simp
  · rw [dif_neg h]
    congr 1
    rw [List.getD_eq_getElem?_getD, List.getElem?_eq_none (le_of_not_lt h)]
    rfl

/-- Example combined segments: "SPEAKER_00", then "Unknown", then
"SPEAKER_00" again. -/
def exRemapX1 : CombinedSegment := ⟨0, 1, "SPEAKER_00", ['a']⟩

def exRemapU : CombinedSegment := ⟨1, 2, "Unknown", ['b']⟩

def exRemapX2 : CombinedSegment := ⟨2, 3, "SPEAKER_00", ['c']⟩

def exRemapL : List CombinedSegment := [exRemapX1, exRemapU, exRemapX2]

lemma distinctBFA_exRemapL :
    distinctByFirstAppearance (exRemapL.map (·.speaker))
      = ["SPEAKER_00", "Unknown"] := by
  have h1 : exRemapL.map (·.speaker) = ["SPEAKER_00", "Unknown", "SPEAKER_00"] := rfl
  rw [h1, distinctBFA_cons]
  have h2 : List.filter (fun y => decide (y ≠ "SPEAKER_00"))
      ["Unknown", "SPEAKER_00"] = ["Unknown"] := rfl
  rw [h2, distinctBFA_cons]
  have h3 : List.filter (fun y => decide (y ≠ "Unknown")) ([] : List String)
      = [] := rfl
  rw [h3, distinctBFA_nil]

/-- Witness for C4: distinct labels are [SPEAKER_00, Unknown]; with names
[Alice, Bob] the remapped speaker sequence is [Alice, Bob, Alice]. -/
theorem remap_positional_witness :
    (["Alice", "Bob"] : List String) ≠ []
    ∧ (remap_speakers exRemapL ["Alice", "Bob"]).map (·.speaker)
        = ["Alice", "Bob", "Alice"] := by
  refine ⟨by decide, ?_⟩
  rw [remap_positional exRemapL ["Alice", "Bob"] (by decide)]
  simp only [distinctBFA_exRemapL]
  decide

/-- C10: the remapper treats "Unknown" like any other source label — when
"Unknown" is the i-th distinct label by first appearance and more than i
names are supplied, every segment labeled "Unknown" is relabeled with the
(i+1)-th supplied name. -/
theorem remap_unknown_gets_name (l : List CombinedSegment) (names : List String)
    (hi : (distinctByFirstAppearance (l.map (·.speaker))).indexOf "Unknown"
        < names.length) :
    ∀ (k : ℕ) (seg : CombinedSegment), l[k]? = some seg → seg.speaker = "Unknown" →
      (remap_speakers l names)[k]?
        = some ⟨seg.start, seg.«end»,
            names.get ⟨(distinctByFirstAppearance (l.map (·.speaker))).indexOf
              "Unknown", hi⟩, seg.text⟩ := by
  intro k seg hk hsp
  simp only [remap_speakers]
  rw [List.getElem?_map, hk]
  simp only [Option.map_some']
  congr 1
  rw [unique_speakers_eq, hsp]
  rw [List.getD_eq_getElem?_getD, List.getElem?_eq_getElem hi]
  simp

/-- Witness for C10: in the example list "Unknown" is the second distinct
label, so with names [Alice, Bob] the "Unknown" segment at index 1 is
relabeled "Bob". -/
theorem remap_unknown_gets_name_witness :
    ((distinctByFirstAppearance (exRemapL.map (·.speaker))).indexOf "Unknown"
        < (["Alice", "Bob"] : List String).length)
    ∧ (remap_speakers exRemapL ["Alice", "Bob"])[1]?
        = some ⟨1, 2, "Bob", ['b']⟩ := by
  have hi : (distinctByFirstAppearance (exRemapL.map (·.speaker))).indexOf "Unknown"
      < (["Alice", "Bob"] : List String).length := by
    rw [distinctBFA_exRemapL]
    decide
  refine ⟨hi, ?_⟩
  rw [remap_unknown_gets_name exRemapL ["Alice", "Bob"] hi 1 exRemapU rfl rfl]
  congr 1
  have hidx : (distinctByFirstAppearance (exRemapL.map (·.speaker))).indexOf
      "Unknown" = 1 := by
    rw [distinctBFA_exRemapL]
    rfl
  simp [exRemapU, hidx]

/-! Claim C5: strict versus lenient RTTM parsing. -/

/-- C5 counterexample: a line with five fields whose time fields are numeric
crashes the lenient grouping loop (the `parts[7]` read sits outside the
`try` block), so the lenient parser does NOT skip every line with too few
fields and CAN fail. -/
theorem lenient_grouping_fails_short_line :
    group_rttm_by_speaker
        [[Tok.word "SPEAKER", Tok.word "file", Tok.num 1, Tok.num 2, Tok.num 3]]
      = Except.error () := rfl

/-- C5 (amended): the strict alignment parser fails on a non-blank line
exactly when it has fewer than 8 fields or a non-numeric time field, and
skips blank lines; the lenient grouping loop silently skips a line whose
time fields (indices 3 and 4) are missing or non-numeric, but a line whose
time fields parse and which still has fewer than 8 fields raises an
uncaught IndexError — the lenient parser is not total. -/
theorem rttm_parsing_asymmetry (parts : List Tok) (hne : parts ≠ []) :
    (parse_rttm [parts] = none ↔
      (parts.length < 8 ∨ (parts[3]?.bind Tok.toFloat) = none
        ∨ (parts[4]?.bind Tok.toFloat) = none))
    ∧ parse_rttm [[], parts] = parse_rttm [parts]
    ∧ (tryTimes parts = none → group_rttm_by_speaker [parts] = Except.ok [])
    ∧ (tryTimes parts ≠ none → parts.length < 8 →
        group_rttm_by_speaker [parts] = Except.error ()) := by
  have hkeep : List.filter (fun l => !l.isEmpty) [parts] = [parts] := by
    rcases parts with _ | ⟨p0, prest⟩
    · exact absurd rfl hne
    · rfl
  refine ⟨?_, ?_, ?_, ?_⟩
  · rw [parse_rttm, hkeep]
    have hmap : ([parts].mapM parse_rttm_line = none)
        ↔ parse_rttm_line parts = none := by
      cases h : parse_rttm_line parts <;> simp [List.mapM, List.mapM.loop, h]
    rw [hmap]
    rcases h3 : parts[3]? with _ | t3
    · have h8 : parts.length < 8 := by
        have := List.getElem?_eq_none_iff.1 h3
        omega
      simp [parse_rttm_line, h3, h8]
    · rcases hf3 : t3.toFloat with _ | q3
      · simp [parse_rttm_line, h3, hf3]
      · rcases h4 : parts[4]? with _ | t4
        · have h8 : parts.length < 8 := by
            have := List.getElem?_eq_none_iff.1 h4
            omega
          simp [parse_rttm_line, h3, hf3, h4, h8]
        · rcases hf4 : t4.toFloat with _ | q4
          · simp [parse_rttm_line, h3, hf3, h4, hf4]
          · rcases h7 : parts[7]? with _ | t7
            · have h8 : parts.length < 8 := by
                have := List.getElem?_eq_none_iff.1 h7
                omega
              simp [parse_rttm_line, h3, hf3, h4, hf4, h7, h8]
            · have h8 : ¬parts.length < 8 := by
                intro hc
                rw [List.getElem?_eq_none (by omega)] at h7
                cases h7
              simp [parse_rttm_line, h3, hf3, h4, hf4, h7, h8]
  · rw [parse_rttm, parse_rttm, List.filter_cons_of_neg (by decide)]
  · intro h
    rcases parts with _ | ⟨p0, prest⟩
    · exact absurd rfl hne
    · simp [group_rttm_by_speaker, h]
      rfl
  · intro h h8
    obtain ⟨se, hse⟩ := Option.ne_none_iff_exists'.1 h
    have h7 : parts[7]? = none := List.getElem?_eq_none (by omega)
    rcases parts with _ | ⟨p0, prest⟩
    · exact absurd rfl hne
    · simp [group_rttm_by_speaker, hse, h7]

/-- Example line with a non-numeric time field at index 3. -/
def exBadLine : List Tok :=
  [Tok.word "SPEAKER", Tok.word "file", Tok.num 1, Tok.word "x", Tok.num 3]

/-- Witness for C5 (amended): the line with a non-numeric start field is
fatal for the strict parser and skipped by the lenient grouping loop. -/
theorem rttm_parsing_asymmetry_witness :
    (exBadLine ≠ [])
    ∧ tryTimes exBadLine = none
    ∧ parse_rttm [exBadLine] = none
    ∧ group_rttm_by_speaker [exBadLine] = Except.ok [] := by
  have h := rttm_parsing_asymmetry exBadLine (by decide)
  exact ⟨by decide, rfl, h.1.mpr (by decide), h.2.2.1 rfl⟩

/-! Claim C6: the health check. -/

/-- Conversation whose persisted state flags all say true. -/
def convAllTrue : Conversation :=
  ⟨"c1", ["Alice"], ⟨true, true, true, true, true, true, true⟩⟩

/-- Folder where every artifact exists except the merged transcript. -/
def folderNoMerged : ConvFolder := ⟨true, false, true, true, false, true⟩

/-- C6 counterexample: with the merged transcript absent the health check
reports it in missing_files, yet the returned states keep every flag true —
no stage flag corresponds to the merged transcript, so none is flipped to
false. -/
theorem health_check_ignores_merged_transcript :
    (health_check folderNoMerged convAllTrue).missing_files
        = ["Merged transcript"]
    ∧ (health_check folderNoMerged convAllTrue).states
        = ⟨true, true, true, true, true, true, true⟩ :=
  ⟨rfl, rfl⟩

/-- C6 (amended): the health check recomputes audioAvailable, diarization,
transcript and speakerAudioSegments from on-disk artifact presence, and
speakerAssignment from the persisted speakers list; the report and stats
flags are carried over untouched, and the absence of the merged transcript
shows up only in the returned missing-files list, never in a state flag. -/
theorem health_check_recompute (fs : ConvFolder) (conv : Conversation) :
    (health_check fs conv).states
      = ⟨fs.wavExists || fs.mp3Exists, fs.rttmExists, fs.rawTranscriptExists,
          fs.speakerSegmentsMp3Exists, !conv.speakers.isEmpty,
          conv.states.report, conv.states.stats⟩
    ∧ (health_check fs conv).conversation
        = { conv with states := (health_check fs conv).states }
    ∧ ("Merged transcript" ∈ (health_check fs conv).missing_files
        ↔ fs.mergedTranscriptExists = false) := by
  refine ⟨rfl, rfl, ?_⟩
  rcases fs with ⟨w, m, r, raw, mg, sg⟩
  cases w <;> cases m <;> cases r <;> cases raw <;> cases mg <;> cases sg <;>
    simp [health_check]

end DeepRecall
